import Mathlib

/-!
# stack_df.cpp: conforming a list of data frames to one column schema

A shallow embedding of `src/stack_df.cpp` (`get_column_types`, `stack_list`)
and the properties of it that the specification states.

R objects are modelled as far as the code looks at them: an atomic vector is
its storage kind and its elements (`none` is the `NA` of that kind), a data
frame is its named columns and the row count of its `row.names` attribute, a
generic vector (Rcpp `List`) is the list of its elements.
-/

namespace StackDf

/-! ## Data model -/

/-- Storage kinds returned by `TYPEOF`. `NILSXP` is the value 0, which is what
`std::map<std::string, SEXPTYPE>::operator[]` yields for an absent key. -/
inductive SEXPTYPE
  | NILSXP
  | LGLSXP
  | INTSXP
  | REALSXP
  | CPLXSXP
  | STRSXP
  | RAWSXP
  deriving DecidableEq, Repr

/-- An atomic R vector, the content of a data-frame column. `none` stands for
the missing-value marker of the kind (`NA_LOGICAL`, `NA_INTEGER`, `NA_REAL`,
`NA_STRING`); raw vectors have none. Attributes of a column (factor levels,
date classes) are not modelled: the code never reads them. -/
inductive RVector
  | LogicalVector (xs : List (Option Bool))
  | IntegerVector (xs : List (Option Int))
  | NumericVector (xs : List (Option Rat))
  | CharacterVector (xs : List (Option String))
  | ComplexVector (xs : List (Option (Rat × Rat)))
  | RawVector (xs : List Nat)
  deriving DecidableEq, Repr

/-- Storage kind of a vector: `TYPEOF(x)`. -/
def TYPEOF : RVector → SEXPTYPE
  | .LogicalVector _ => .LGLSXP
  | .IntegerVector _ => .INTSXP
  | .NumericVector _ => .REALSXP
  | .CharacterVector _ => .STRSXP
  | .ComplexVector _ => .CPLXSXP
  | .RawVector _ => .RAWSXP

/-- Number of elements of a vector. -/
def RVector.size : RVector → Nat
  | .LogicalVector xs => xs.length
  | .IntegerVector xs => xs.length
  | .NumericVector xs => xs.length
  | .CharacterVector xs => xs.length
  | .ComplexVector xs => xs.length
  | .RawVector xs => xs.length

/-- The length-1 vectors `as.list` makes of an atomic vector. -/
def RVector.split : RVector → List RVector
  | .LogicalVector xs => xs.map (fun x => .LogicalVector [x])
  | .IntegerVector xs => xs.map (fun x => .IntegerVector [x])
  | .NumericVector xs => xs.map (fun x => .NumericVector [x])
  | .CharacterVector xs => xs.map (fun x => .CharacterVector [x])
  | .ComplexVector xs => xs.map (fun x => .ComplexVector [x])
  | .RawVector xs => xs.map (fun x => .RawVector [x])

/-- A list with a `names` attribute: each slot is a name and a vector. This is
what `stack_list` builds for every input data frame (`new_df`). -/
abbrev NamedList := List (String × RVector)

/-- The `names` attribute. -/
def names (cols : NamedList) : List String := cols.map Prod.fst

/-- Name lookup as Rcpp does it (`containsElementNamed` followed by
`operator[](name)`): scan the names front to back, take the first match. -/
def getNamed : NamedList → String → Option RVector
  | [], _ => none
  | (n, v) :: rest, colname => if n = colname then some v else getNamed rest colname

/-- A data frame: named columns, and the row count that `DataFrame::nrows()`
reads off the `row.names` attribute. -/
structure DataFrame where
  columns : NamedList
  nrows : Nat
  deriving DecidableEq, Repr

/-- An element of a generic vector. -/
inductive Elem
  | DataFrame (df : DataFrame)
  | NamedList (cols : NamedList)
  | Vector (v : RVector)
  | NULL
  deriving DecidableEq, Repr

/-- An argument handed to the exported function. -/
inductive SEXP
  | NULL
  | Vector (v : RVector)
  | GenericVector (elems : List Elem)
  deriving DecidableEq, Repr

/-- `Rf_isFrame`: the object carries the class `data.frame`. -/
def Rf_isFrame : Elem → Bool
  | .DataFrame _ => true
  | _ => false

/-- `Rf_isVectorList`: the object is a generic vector. -/
def Rf_isVectorList : SEXP → Bool
  | .GenericVector _ => true
  | _ => false

/-- `isNULL()`. -/
def SEXP.isNULL : SEXP → Bool
  | .NULL => true
  | _ => false

/-- Elements of a generic vector (`size()` and `operator[]` on it); nothing for
another object. -/
def SEXP.elems : SEXP → List Elem
  | .GenericVector es => es
  | _ => []

/-- Conversion of an argument to the parameter type `List` (Rcpp
`Vector<VECSXP>`), done before the function body runs: a generic vector is
taken as it is, any other object goes through R's `as.list`, which makes the
empty list of `NULL` and a list of length-1 vectors of an atomic vector. -/
def as_List : SEXP → SEXP
  | .GenericVector es => .GenericVector es
  | .NULL => .GenericVector []
  | .Vector v => .GenericVector (v.split.map Elem.Vector)

/-- The data frames among the elements; `as<DataFrame>` returns an object of
class `data.frame` unchanged. -/
def frames : List Elem → List DataFrame
  | [] => []
  | .DataFrame df :: rest => df :: frames rest
  | _ :: rest => frames rest

/-! ## get_column_types -/

/-- The map `std::map<std::string, SEXPTYPE>` as a list of entries. -/
abbrev ColTypes := List (String × SEXPTYPE)

/-- `col_types.find(colname)`; `none` is `col_types.end()`. -/
def ColTypes.find : ColTypes → String → Option SEXPTYPE
  | [], _ => none
  | (k, t) :: rest, colname => if k = colname then some t else ColTypes.find rest colname

/-- `col_types[colname]` read as a value: the entry, or 0 for an absent key. -/
def ColTypes.at (m : ColTypes) (colname : String) : SEXPTYPE :=
  (m.find colname).getD .NILSXP

/-- Inner loop of `get_column_types` over the columns of one data frame. -/
def scan_columns : ColTypes → NamedList → ColTypes
  | col_types, [] => col_types
  | col_types, (colname, col) :: rest =>
    if col_types.find colname = none then
      scan_columns ((colname, TYPEOF col) :: col_types) rest
    else
      scan_columns col_types rest

/-- Outer loop of `get_column_types`, from the map built so far. -/
def scan_frames : ColTypes → List DataFrame → ColTypes
  | col_types, [] => col_types
  | col_types, df :: rest => scan_frames (scan_columns col_types df.columns) rest

/-- `get_column_types(df_list, all_names)`: the kind of each column name at its
first appearance. `all_names` is not used by the code. -/
def get_column_types (df_list : List DataFrame) (_all_names : List String) : ColTypes :=
  scan_frames [] df_list

/-! ## stack_list -/

/-- The type of Rcpp sugar `union_` on character vectors. -/
abbrev UnionFn := List String → List String → List String

/-- What Rcpp promises of `union_(lhs, rhs)`: it puts the elements of both
vectors into a hash set and copies the set out, so the result has every element
of either vector exactly once. The order is the iteration order of the hash
set, which the library leaves open. -/
def IsSetUnion (union_ : UnionFn) : Prop :=
  ∀ a b, (union_ a b).Nodup ∧ ∀ x, x ∈ union_ a b ↔ x ∈ a ∨ x ∈ b

/-- First loop of `stack_list`: every element must be a data frame, and its
names are united with the names found so far. -/
def collect_names (union_ : UnionFn) : List Elem → List String → Except String (List String)
  | [], all_names => .ok all_names
  | .DataFrame df :: rest, all_names =>
    collect_names union_ rest (union_ all_names (names df.columns))
  | _ :: _, _ => .error "All list elements must be data frames"

/-- Column of missing values for a name the data frame lacks: the two
`switch(col_type)` blocks. -/
def na_column (col_type : SEXPTYPE) (nrows : Nat) : RVector :=
  if nrows > 0 then
    match col_type with
    | .INTSXP => .IntegerVector (List.replicate nrows none)
    | .REALSXP => .NumericVector (List.replicate nrows none)
    | .STRSXP => .CharacterVector (List.replicate nrows none)
    | .LGLSXP => .LogicalVector (List.replicate nrows none)
    | _ => .NumericVector (List.replicate nrows none)
  else
    match col_type with
    | .INTSXP => .IntegerVector []
    | .REALSXP => .NumericVector []
    | .STRSXP => .CharacterVector []
    | .LGLSXP => .LogicalVector []
    | _ => .NumericVector []

/-- Body of the loop over `all_names`: slot `j` of `new_df`. -/
def fill_column (df : DataFrame) (col_types : ColTypes) (colname : String) : RVector :=
  match getNamed df.columns colname with
  | some col => col
  | none => na_column (col_types.at colname) df.nrows

/-- One pass of the loop over the data frames: `new_df`. -/
def process_df (all_names : List String) (col_types : ColTypes) (df : DataFrame) : NamedList :=
  all_names.map (fun colname => (colname, fill_column df col_types colname))

/-- `stack_list(df_list)` as called from R, `union_` being the library's
union of character vectors. -/
def stack_list (union_ : UnionFn) (arg : SEXP) : Except String (List NamedList) :=
  let df_list := as_List arg
  if !df_list.isNULL && !Rf_isVectorList df_list then
    .error "Input should be a plain list of dataframe items to be stacked"
  else
    match collect_names union_ df_list.elems [] with
    | .error msg => .error msg
    | .ok all_names =>
      let col_types := get_column_types (frames df_list.elems) all_names
      .ok ((frames df_list.elems).map (process_df all_names col_types))

/-- A list of data frames as an argument. -/
def ofFrames (tables : List DataFrame) : SEXP :=
  .GenericVector (tables.map Elem.DataFrame)

/-! ## Two unions -/

/-- Names of `xs` not yet in `seen`, appended to `seen` in their order. -/
def appendNew : List String → List String → List String
  | seen, [] => seen
  | seen, x :: xs => if x ∈ seen then appendNew seen xs else appendNew (seen ++ [x]) xs

/-- A union that keeps the order of first appearance, as R's `union` does. -/
def union_stable : UnionFn := fun a b => appendNew [] (a ++ b)

/-- A union in the order that a chained hash set gives when each new key is
linked at the head of the element list: the reverse of the insertion order. -/
def union_head : UnionFn := fun a b => (appendNew [] (a ++ b)).reverse

/-- First-seen order of the column names of a list of tables, in the words of
the specification: tables in list order, columns in stored order, a name
appended the first time it is seen. -/
def NameUnion (tables : List DataFrame) : List String :=
  tables.foldl (fun seen t => appendNew seen (names t.columns)) []

/-- The names after the first loop has run over data frames only. -/
def unite (union_ : UnionFn) : List DataFrame → List String → List String
  | [], all_names => all_names
  | df :: rest, all_names => unite union_ rest (union_ all_names (names df.columns))

deriving instance DecidableEq for Except

/-! ## Sample tables -/

/-- Table `{id: [1, 2], name: ["a", "b"]}`. -/
def table1 : DataFrame :=
  ⟨[("id", .IntegerVector [some 1, some 2]), ("name", .CharacterVector [some "a", some "b"])], 2⟩

/-- Table `{id: [3], score: [7]}`. -/
def table2 : DataFrame :=
  ⟨[("id", .IntegerVector [some 3]), ("score", .NumericVector [some 7])], 1⟩

/-- Table with no rows and the one column `id`. -/
def table0 : DataFrame := ⟨[("id", .IntegerVector [])], 0⟩

/-- Table whose column `id` holds strings. -/
def table3 : DataFrame := ⟨[("id", .CharacterVector [some "x"])], 1⟩

/-- Table `{id: [3], score: [9.5]}`. -/
def tableScore : DataFrame :=
  ⟨[("id", .IntegerVector [some 3]), ("score", .NumericVector [some 9.5])], 1⟩

/-- The value returned by `stack_list` handed to it again: a generic vector of
plain named lists. -/
def ofOutput (out : List NamedList) : SEXP :=
  .GenericVector (out.map Elem.NamedList)

/-- The output for `table1` and `table2` with the names in first-seen order. -/
def outputSample : List NamedList :=
  [[("id", .IntegerVector [some 1, some 2]), ("name", .CharacterVector [some "a", some "b"]),
    ("score", .NumericVector [none, none])],
   [("id", .IntegerVector [some 3]), ("name", .CharacterVector [none]),
    ("score", .NumericVector [some 7])]]

/-- The tables of `outputSample` as data frames of two rows and one row. -/
def retaggedSample : List DataFrame :=
  [⟨[("id", .IntegerVector [some 1, some 2]), ("name", .CharacterVector [some "a", some "b"]),
     ("score", .NumericVector [none, none])], 2⟩,
   ⟨[("id", .IntegerVector [some 3]), ("name", .CharacterVector [none]),
     ("score", .NumericVector [some 7])], 1⟩]

/-! ## Objects of class data.frame without names -/

theorem mem_appendNew (xs : List String) : ∀ (seen : List String) (x : String),
    x ∈ appendNew seen xs ↔ x ∈ seen ∨ x ∈ xs := by
  induction xs with
  | nil => intro seen x; simp [appendNew]
  | cons y ys ih =>
    intro seen x
    unfold appendNew
    split
    · rename_i hy
      rw [ih]
      constructor
      · rintro (h | h)
        · exact Or.inl h
        · exact Or.inr (List.mem_cons_of_mem _ h)
      · rintro (h | h)
        · exact Or.inl h
        · rcases List.mem_cons.mp h with h | h
          · exact Or.inl (h ▸ hy)
          · exact Or.inr h
    · rw [ih]
      simp only [List.mem_append, List.mem_singleton, List.mem_cons]
      tauto

theorem appendNew_nodup (xs : List String) : ∀ (seen : List String),
    seen.Nodup → (appendNew seen xs).Nodup := by
  induction xs with
  | nil => intro seen h; simpa [appendNew] using h
  | cons y ys ih =>
    intro seen h
    unfold appendNew
    split
    · exact ih seen h
    · rename_i hy
      apply ih
      rw [List.nodup_append]
      refine ⟨h, List.nodup_singleton y, ?_⟩
      intro a ha hb
      rw [List.mem_singleton] at hb
      exact hy (hb ▸ ha)

theorem appendNew_append (xs ys : List String) : ∀ (seen : List String),
    appendNew seen (xs ++ ys) = appendNew (appendNew seen xs) ys := by
  induction xs with
  | nil => intro seen; simp [appendNew]
  | cons x xs ih =>
    intro seen
    simp only [List.cons_append, appendNew]
    split
    · exact ih seen
    · exact ih _

theorem appendNew_of_nodup (xs : List String) : ∀ (seen : List String),
    (seen ++ xs).Nodup → appendNew seen xs = seen ++ xs := by
  induction xs with
  | nil => intro seen _; simp [appendNew]
  | cons x xs ih =>
    intro seen h
    have hx : x ∉ seen := by
      intro hmem
      rw [List.nodup_append] at h
      exact h.2.2 hmem (List.mem_cons_self _ _)
    unfold appendNew
    rw [if_neg hx, ih]
    · simp
    · simpa using h

theorem appendNew_nil_of_nodup (xs : List String) (h : xs.Nodup) : appendNew [] xs = xs := by
  simpa using appendNew_of_nodup xs [] (by simpa using h)

/-- The order-keeping union is a set union. -/
theorem union_stable_isSetUnion : IsSetUnion union_stable := by
  intro a b
  refine ⟨appendNew_nodup _ _ List.nodup_nil, ?_⟩
  intro x
  simp [union_stable, mem_appendNew]

/-- The head-linking union is a set union. -/
theorem union_head_isSetUnion : IsSetUnion union_head := by
  intro a b
  refine ⟨List.nodup_reverse.mpr (appendNew_nodup _ _ List.nodup_nil), ?_⟩
  intro x
  simp [union_head, mem_appendNew]

/-- On a left operand without repetition the order-keeping union appends the
new names of the right operand. -/
theorem union_stable_eq (a b : List String) (h : a.Nodup) :
    union_stable a b = appendNew a b := by
  simp [union_stable, appendNew_append, appendNew_nil_of_nodup a h]

theorem frames_map (tables : List DataFrame) : frames (tables.map Elem.DataFrame) = tables := by
  induction tables with
  | nil => rfl
  | cons t ts ih => simp [frames, ih]

theorem collect_names_map (union_ : UnionFn) (tables : List DataFrame) :
    ∀ all_names, collect_names union_ (tables.map Elem.DataFrame) all_names
      = .ok (unite union_ tables all_names) := by
  induction tables with
  | nil => intro a; rfl
  | cons t ts ih => intro a; simp [collect_names, unite, ih]

/-- On a list of data frames `stack_list` returns, one output per input. -/
theorem stack_list_ofFrames (union_ : UnionFn) (tables : List DataFrame) :
    stack_list union_ (ofFrames tables)
      = .ok (tables.map (process_df (unite union_ tables [])
          (get_column_types tables (unite union_ tables [])))) := by
  simp [stack_list, ofFrames, as_List, SEXP.isNULL, Rf_isVectorList, SEXP.elems,
    collect_names_map, frames_map]

theorem unite_nodup (union_ : UnionFn) (hU : IsSetUnion union_) (tables : List DataFrame) :
    ∀ acc, acc.Nodup → (unite union_ tables acc).Nodup := by
  induction tables with
  | nil => intro acc h; exact h
  | cons t ts ih => intro acc _; exact ih _ (hU acc (names t.columns)).1

theorem mem_unite (union_ : UnionFn) (hU : IsSetUnion union_) (tables : List DataFrame) :
    ∀ acc x, x ∈ unite union_ tables acc ↔ x ∈ acc ∨ ∃ df ∈ tables, x ∈ names df.columns := by
  induction tables with
  | nil => intro acc x; simp [unite]
  | cons t ts ih =>
    intro acc x
    simp only [unite]
    rw [ih, (hU acc (names t.columns)).2 x]
    simp only [List.mem_cons, exists_eq_or_imp]
    tauto

theorem names_process_df (all_names : List String) (col_types : ColTypes) (df : DataFrame) :
    names (process_df all_names col_types df) = all_names := by
  simp [names, process_df, List.map_map, Function.comp_def]

theorem unite_eq_NameUnion (union_ : UnionFn)
    (hU : ∀ a b, a.Nodup → union_ a b = appendNew a b) (tables : List DataFrame) :
    ∀ acc, acc.Nodup → unite union_ tables acc
      = tables.foldl (fun seen t => appendNew seen (names t.columns)) acc := by
  induction tables with
  | nil => intro acc _; rfl
  | cons t ts ih =>
    intro acc h
    simp only [unite, List.foldl_cons]
    rw [hU acc _ h]
    exact ih _ (appendNew_nodup _ _ h)

theorem getNamed_map (f : String → RVector) (c : String) :
    ∀ l : List String, c ∈ l → getNamed (l.map (fun n => (n, f n))) c = some (f c) := by
  intro l
  induction l with
  | nil => intro h; cases h
  | cons x xs ih =>
    intro h
    simp only [List.map_cons, getNamed]
    by_cases hx : x = c
    · simp [hx]
    · rw [if_neg hx]
      rcases List.mem_cons.mp h with h | h
      · exact absurd h.symm hx
      · exact ih h

theorem getNamed_process_df (all_names : List String) (col_types : ColTypes) (df : DataFrame)
    (c : String) (h : c ∈ all_names) :
    getNamed (process_df all_names col_types df) c = some (fill_column df col_types c) :=
  getNamed_map (fun n => fill_column df col_types n) c all_names h

theorem mem_names_of_getNamed (c : String) (v : RVector) :
    ∀ cols : NamedList, getNamed cols c = some v → c ∈ names cols := by
  intro cols
  induction cols with
  | nil => intro h; simp [getNamed] at h
  | cons p ps ih =>
    obtain ⟨n, w⟩ := p
    intro h
    simp only [getNamed] at h
    by_cases hn : n = c
    · simp [names, hn]
    · rw [if_neg hn] at h
      have := ih h
      simp only [names, List.map_cons, List.mem_cons] at this ⊢
      exact Or.inr this

theorem getNamed_of_not_mem (c : String) :
    ∀ cols : NamedList, c ∉ names cols → getNamed cols c = none := by
  intro cols
  induction cols with
  | nil => intro _; rfl
  | cons p ps ih =>
    obtain ⟨n, w⟩ := p
    intro h
    simp only [names, List.map_cons, List.mem_cons, not_or] at h
    simp only [getNamed]
    rw [if_neg (fun e => h.1 e.symm)]
    exact ih h.2

theorem mem_of_getNamed (c : String) (v : RVector) :
    ∀ cols : NamedList, getNamed cols c = some v → (c, v) ∈ cols := by
  intro cols
  induction cols with
  | nil => intro h; simp [getNamed] at h
  | cons p ps ih =>
    obtain ⟨n, w⟩ := p
    intro h
    simp only [getNamed] at h
    by_cases hn : n = c
    · rw [if_pos hn] at h
      cases h
      simp [hn]
    · rw [if_neg hn] at h
      exact List.mem_cons_of_mem _ (ih h)

theorem find_scan_columns_of_some (c : String) (T : SEXPTYPE) (cols : NamedList) :
    ∀ m : ColTypes, m.find c = some T → (scan_columns m cols).find c = some T := by
  induction cols with
  | nil => intro m h; exact h
  | cons p ps ih =>
    obtain ⟨n, w⟩ := p
    intro m h
    simp only [scan_columns]
    split
    · rename_i hn
      apply ih
      simp only [ColTypes.find]
      by_cases e : n = c
      · rw [e, h] at hn; cases hn
      · rw [if_neg e]; exact h
    · exact ih m h

theorem find_scan_columns_of_not_mem (c : String) (cols : NamedList) :
    ∀ m : ColTypes, m.find c = none → c ∉ names cols → (scan_columns m cols).find c = none := by
  induction cols with
  | nil => intro m h _; exact h
  | cons p ps ih =>
    obtain ⟨n, w⟩ := p
    intro m h hc
    simp only [names, List.map_cons, List.mem_cons, not_or] at hc
    simp only [scan_columns]
    split
    · apply ih _ _ hc.2
      simp only [ColTypes.find]
      rw [if_neg (fun e => hc.1 e.symm)]
      exact h
    · exact ih m h hc.2

theorem find_scan_columns_of_getNamed (c : String) (v : RVector) (cols : NamedList) :
    ∀ m : ColTypes, m.find c = none → getNamed cols c = some v →
      (scan_columns m cols).find c = some (TYPEOF v) := by
  induction cols with
  | nil => intro m _ h; simp [getNamed] at h
  | cons p ps ih =>
    obtain ⟨n, w⟩ := p
    intro m h hv
    simp only [getNamed] at hv
    simp only [scan_columns]
    by_cases e : n = c
    · rw [if_pos e] at hv
      cases hv
      rw [e, if_pos h]
      apply find_scan_columns_of_some
      simp [ColTypes.find]
    · rw [if_neg e] at hv
      split
      · apply ih _ _ hv
        simp only [ColTypes.find]
        rw [if_neg e]
        exact h
      · exact ih m h hv

theorem find_scan_frames_of_some (c : String) (T : SEXPTYPE) (tables : List DataFrame) :
    ∀ m : ColTypes, m.find c = some T → (scan_frames m tables).find c = some T := by
  induction tables with
  | nil => intro m h; exact h
  | cons t ts ih =>
    intro m h
    exact ih _ (find_scan_columns_of_some c T t.columns m h)

theorem find_scan_frames_first (c : String) (v : RVector) (tables : List DataFrame) :
    ∀ (m : ColTypes) (k : Nat) (df : DataFrame), m.find c = none → tables[k]? = some df →
      getNamed df.columns c = some v →
      (∀ j d, j < k → tables[j]? = some d → c ∉ names d.columns) →
      (scan_frames m tables).find c = some (TYPEOF v) := by
  induction tables with
  | nil => intro m k df _ hk; simp at hk
  | cons t ts ih =>
    intro m k df hm hk hv hfirst
    simp only [scan_frames]
    cases k with
    | zero =>
      simp only [List.getElem?_cons_zero, Option.some.injEq] at hk
      subst hk
      exact find_scan_frames_of_some c _ ts _ (find_scan_columns_of_getNamed c v _ m hm hv)
    | succ k =>
      simp only [List.getElem?_cons_succ] at hk
      have h0 : c ∉ names t.columns := hfirst 0 t (Nat.succ_pos k) (by simp)
      apply ih _ k df (find_scan_columns_of_not_mem c _ m hm h0) hk hv
      intro j d hj hd
      exact hfirst (j + 1) d (Nat.succ_lt_succ hj) (by simpa using hd)

theorem out_getElem? (all_names : List String) (col_types : ColTypes)
    (tables : List DataFrame) (i : Nat) (df : DataFrame) (hi : tables[i]? = some df) :
    (tables.map (process_df all_names col_types))[i]?
      = some (process_df all_names col_types df) := by
  simp [List.getElem?_map, hi]

theorem size_na_column (T : SEXPTYPE) (n : Nat) : (na_column T n).size = n := by
  rcases Nat.eq_zero_or_pos n with h0 | hpos
  · cases T <;> simp [na_column, h0, RVector.size]
  · cases T <;> simp [na_column, hpos, RVector.size]

theorem TYPEOF_na_column (T : SEXPTYPE) (n : Nat) :
    (T = .INTSXP → TYPEOF (na_column T n) = .INTSXP) ∧
    (T = .REALSXP → TYPEOF (na_column T n) = .REALSXP) ∧
    (T = .STRSXP → TYPEOF (na_column T n) = .STRSXP) ∧
    (T = .LGLSXP → TYPEOF (na_column T n) = .LGLSXP) ∧
    (T ≠ .INTSXP → T ≠ .REALSXP → T ≠ .STRSXP → T ≠ .LGLSXP →
      TYPEOF (na_column T n) = .REALSXP) := by
  rcases Nat.eq_zero_or_pos n with h0 | hpos
  · cases T <;> simp [na_column, h0, TYPEOF]
  · cases T <;> simp [na_column, hpos, TYPEOF]

theorem exists_getNamed_of_mem (c : String) :
    ∀ cols : NamedList, c ∈ names cols → ∃ v, getNamed cols c = some v := by
  intro cols h
  cases hg : getNamed cols c with
  | some v => exact ⟨v, rfl⟩
  | none =>
    exfalso
    induction cols with
    | nil => simp [names] at h
    | cons p ps ih =>
      obtain ⟨n, w⟩ := p
      simp only [getNamed] at hg
      by_cases e : n = c
      · rw [if_pos e] at hg; cases hg
      · rw [if_neg e] at hg
        simp only [names, List.map_cons, List.mem_cons] at h
        rcases h with h | h
        · exact e h.symm
        · exact ih h hg

theorem eq_of_getNamed_map (f : String → RVector) (c : String) (col : RVector) :
    ∀ l : List String, getNamed (l.map (fun n => (n, f n))) c = some col → col = f c := by
  intro l
  induction l with
  | nil => intro h; simp [getNamed] at h
  | cons x xs ih =>
    intro h
    simp only [List.map_cons, getNamed] at h
    by_cases hx : x = c
    · rw [if_pos hx] at h
      cases h
      rw [hx]
    · rw [if_neg hx] at h
      exact ih h

theorem find_scan_columns_typed (c : String) (T : SEXPTYPE) (cols : NamedList)
    (m : ColTypes) (hm : m.find c = none ∨ m.find c = some T)
    (hT : ∀ v, getNamed cols c = some v → TYPEOF v = T) :
    ((scan_columns m cols).find c = none ∧ c ∉ names cols) ∨
      (scan_columns m cols).find c = some T := by
  rcases hm with hm | hm
  · by_cases hc : c ∈ names cols
    · obtain ⟨v, hv⟩ := exists_getNamed_of_mem c cols hc
      right
      rw [find_scan_columns_of_getNamed c v cols m hm hv, hT v hv]
    · exact Or.inl ⟨find_scan_columns_of_not_mem c cols m hm hc, hc⟩
  · exact Or.inr (find_scan_columns_of_some c T cols m hm)

theorem find_scan_frames_typed (c : String) (T : SEXPTYPE) (tables : List DataFrame)
    (hT : ∀ d ∈ tables, ∀ v, getNamed d.columns c = some v → TYPEOF v = T) :
    ∀ m : ColTypes, (m.find c = none ∨ m.find c = some T) →
      (m.find c = some T ∨ ∃ d ∈ tables, c ∈ names d.columns) →
      (scan_frames m tables).find c = some T := by
  induction tables with
  | nil =>
    intro m _ h
    rcases h with h | ⟨d, hd, _⟩
    · exact h
    · cases hd
  | cons t ts ih =>
    intro m hm h
    simp only [scan_frames]
    have hts : ∀ d ∈ ts, ∀ v, getNamed d.columns c = some v → TYPEOF v = T :=
      fun d hd => hT d (List.mem_cons_of_mem _ hd)
    rcases find_scan_columns_typed c T t.columns m hm (hT t (List.mem_cons_self _ _))
      with ⟨hnone, hnot⟩ | hsome
    · apply ih hts _ (Or.inl hnone)
      rcases h with h | ⟨d, hd, hcd⟩
      · exact absurd (find_scan_columns_of_some c T t.columns m h) (by simp [hnone])
      · rcases List.mem_cons.mp hd with rfl | hd
        · exact absurd hcd hnot
        · exact Or.inr ⟨d, hd, hcd⟩
    · exact ih hts _ (Or.inr hsome) (Or.inl hsome)

theorem collect_names_cases (union_ : UnionFn) (elems : List Elem) :
    ∀ all_names,
      (collect_names union_ elems all_names = .error "All list elements must be data frames" ∧
        ∃ e ∈ elems, Rf_isFrame e = false) ∨
      ((∃ a, collect_names union_ elems all_names = .ok a) ∧
        ∀ e ∈ elems, Rf_isFrame e = true) := by
  induction elems with
  | nil => intro a; exact Or.inr ⟨⟨a, rfl⟩, by simp⟩
  | cons e es ih =>
    intro a
    cases e with
    | DataFrame df =>
      simp only [collect_names]
      rcases ih (union_ a (names df.columns)) with ⟨h1, x, hx, hf⟩ | ⟨h1, h2⟩
      · exact Or.inl ⟨h1, x, List.mem_cons_of_mem _ hx, hf⟩
      · refine Or.inr ⟨h1, ?_⟩
        intro x hx
        rcases List.mem_cons.mp hx with rfl | hx
        · rfl
        · exact h2 x hx
    | NamedList cols =>
      exact Or.inl ⟨rfl, _, List.mem_cons_self _ _, rfl⟩
    | Vector v =>
      exact Or.inl ⟨rfl, _, List.mem_cons_self _ _, rfl⟩
    | NULL =>
      exact Or.inl ⟨rfl, _, List.mem_cons_self _ _, rfl⟩

theorem stack_list_GenericVector (union_ : UnionFn) (elems : List Elem) :
    stack_list union_ (.GenericVector elems) =
      match collect_names union_ elems [] with
      | .error msg => .error msg
      | .ok all_names =>
        .ok ((frames elems).map
          (process_df all_names (get_column_types (frames elems) all_names))) := by
  simp [stack_list, as_List, SEXP.isNULL, Rf_isVectorList, SEXP.elems]

theorem as_List_isList (arg : SEXP) : ∃ elems, as_List arg = .GenericVector elems := by
  cases arg with
  | NULL => exact ⟨_, rfl⟩
  | Vector v => exact ⟨_, rfl⟩
  | GenericVector es => exact ⟨_, rfl⟩

theorem stack_list_as_List (union_ : UnionFn) (arg : SEXP) :
    stack_list union_ arg = stack_list union_ (as_List arg) := by
  cases arg <;> rfl

theorem stack_list_GenericVector_cases (union_ : UnionFn) (elems : List Elem) :
    (stack_list union_ (.GenericVector elems)
        = .error "All list elements must be data frames" ↔
      ∃ e ∈ elems, Rf_isFrame e = false) ∧
    ((∃ out, stack_list union_ (.GenericVector elems) = .ok out) ↔
      ∀ e ∈ elems, Rf_isFrame e = true) ∧
    (∀ msg, stack_list union_ (.GenericVector elems) = .error msg →
      msg = "All list elements must be data frames") := by
  rw [stack_list_GenericVector]
  rcases collect_names_cases union_ elems [] with ⟨h1, x, hx, hf⟩ | ⟨⟨a, h1⟩, h2⟩
  · rw [h1]
    refine ⟨⟨fun _ => ⟨x, hx, hf⟩, fun _ => rfl⟩, ⟨?_, ?_⟩, ?_⟩
    · rintro ⟨out, h⟩
      cases h
    · intro h
      rw [h x hx] at hf
      cases hf
    · intro msg h
      cases h
      rfl
  · rw [h1]
    refine ⟨⟨?_, ?_⟩, ⟨fun _ => h2, fun _ => ⟨_, rfl⟩⟩, ?_⟩
    · intro h
      cases h
    · rintro ⟨e, he, hf⟩
      rw [h2 e he] at hf
      cases hf
    · intro msg h
      cases h

/-! ## The schema of the output -/

/-- C1: for a list of tables, `stack_list` returns, all output tables carry one
and the same sequence of column names, no name is in it twice, and its names
are exactly the column names of the input tables. -/
theorem stack_list_schema (union_ : UnionFn) (hU : IsSetUnion union_)
    (tables : List DataFrame) :
    ∃ out all_names, stack_list union_ (ofFrames tables) = .ok out ∧
      (∀ t ∈ out, names t = all_names) ∧ all_names.Nodup ∧
      ∀ c, c ∈ all_names ↔ ∃ df ∈ tables, c ∈ names df.columns := by
  refine ⟨_, unite union_ tables [], stack_list_ofFrames union_ tables, ?_, ?_, ?_⟩
  · intro t ht
    obtain ⟨df, _, rfl⟩ := List.mem_map.mp ht
    exact names_process_df _ _ _
  · exact unite_nodup union_ hU tables [] List.nodup_nil
  · intro c
    rw [mem_unite union_ hU tables [] c]
    simp

theorem stack_list_schema_witness :
    ∃ out all_names, stack_list union_stable (ofFrames [table1, table2]) = .ok out ∧
      (∀ t ∈ out, names t = all_names) ∧ all_names.Nodup ∧
      ∀ c, c ∈ all_names ↔ ∃ df ∈ [table1, table2], c ∈ names df.columns :=
  stack_list_schema union_stable union_stable_isSetUnion [table1, table2]

/-! ## The columns of the output -/

/-- C3: a column that input table `i` has is, under its name, in output table
`i` with the same values and the same type. -/
theorem value_fidelity (union_ : UnionFn) (hU : IsSetUnion union_)
    (tables : List DataFrame) (i : Nat) (df : DataFrame) (hi : tables[i]? = some df)
    (c : String) (v : RVector) (hv : getNamed df.columns c = some v) :
    ∃ out t, stack_list union_ (ofFrames tables) = .ok out ∧ out[i]? = some t ∧
      getNamed t c = some v := by
  refine ⟨_, _, stack_list_ofFrames union_ tables, out_getElem? _ _ tables i df hi, ?_⟩
  have hmem : c ∈ unite union_ tables [] := by
    rw [mem_unite union_ hU tables [] c]
    exact Or.inr ⟨df, List.getElem?_mem hi, mem_names_of_getNamed c v _ hv⟩
  rw [getNamed_process_df _ _ _ _ hmem]
  simp [fill_column, hv]

theorem value_fidelity_witness :
    ∃ out t, stack_list union_stable (ofFrames [table1, table2]) = .ok out ∧
      out[1]? = some t ∧ getNamed t "score" = some (.NumericVector [some 7]) :=
  value_fidelity union_stable union_stable_isSetUnion [table1, table2] 1 table2
    (by decide) "score" (.NumericVector [some 7]) (by decide)

/-- C4: for a name `c` of the name union that input table `i` lacks, the column
`c` of output table `i` has as many elements as the table has rows, and all of
them are the missing-value marker of the kind recorded for `c`: of integers,
doubles, strings or logicals for these four kinds, of doubles for any other. -/
theorem null_fill (union_ : UnionFn) (hU : IsSetUnion union_)
    (tables : List DataFrame) (i : Nat) (df : DataFrame) (hi : tables[i]? = some df)
    (c : String) (hc : ∃ d ∈ tables, c ∈ names d.columns) (hmiss : c ∉ names df.columns) :
    ∃ out t col, stack_list union_ (ofFrames tables) = .ok out ∧ out[i]? = some t ∧
      getNamed t c = some col ∧ col.size = df.nrows ∧
      ((get_column_types tables (names t)).at c = .INTSXP →
        col = .IntegerVector (List.replicate df.nrows none)) ∧
      ((get_column_types tables (names t)).at c = .REALSXP →
        col = .NumericVector (List.replicate df.nrows none)) ∧
      ((get_column_types tables (names t)).at c = .STRSXP →
        col = .CharacterVector (List.replicate df.nrows none)) ∧
      ((get_column_types tables (names t)).at c = .LGLSXP →
        col = .LogicalVector (List.replicate df.nrows none)) ∧
      ((get_column_types tables (names t)).at c ≠ .INTSXP →
        (get_column_types tables (names t)).at c ≠ .REALSXP →
        (get_column_types tables (names t)).at c ≠ .STRSXP →
        (get_column_types tables (names t)).at c ≠ .LGLSXP →
        col = .NumericVector (List.replicate df.nrows none)) := by
  have hmem : c ∈ unite union_ tables [] := by
    rw [mem_unite union_ hU tables [] c]
    exact Or.inr hc
  refine ⟨_, _, _, stack_list_ofFrames union_ tables, out_getElem? _ _ tables i df hi,
    getNamed_process_df _ _ _ _ hmem, ?_⟩
  simp only [fill_column, getNamed_of_not_mem c _ hmiss, get_column_types]
  generalize (scan_frames [] tables).at c = T
  rcases Nat.eq_zero_or_pos df.nrows with h0 | hpos
  · cases T <;> simp [na_column, h0, RVector.size]
  · cases T <;> simp [na_column, hpos, RVector.size]

theorem null_fill_witness :
    ∃ out t col, stack_list union_stable (ofFrames [table1, table2]) = .ok out ∧
      out[0]? = some t ∧ getNamed t "score" = some col ∧ col.size = table1.nrows ∧
      ((get_column_types [table1, table2] (names t)).at "score" = .INTSXP →
        col = .IntegerVector (List.replicate table1.nrows none)) ∧
      ((get_column_types [table1, table2] (names t)).at "score" = .REALSXP →
        col = .NumericVector (List.replicate table1.nrows none)) ∧
      ((get_column_types [table1, table2] (names t)).at "score" = .STRSXP →
        col = .CharacterVector (List.replicate table1.nrows none)) ∧
      ((get_column_types [table1, table2] (names t)).at "score" = .LGLSXP →
        col = .LogicalVector (List.replicate table1.nrows none)) ∧
      ((get_column_types [table1, table2] (names t)).at "score" ≠ .INTSXP →
        (get_column_types [table1, table2] (names t)).at "score" ≠ .REALSXP →
        (get_column_types [table1, table2] (names t)).at "score" ≠ .STRSXP →
        (get_column_types [table1, table2] (names t)).at "score" ≠ .LGLSXP →
        col = .NumericVector (List.replicate table1.nrows none)) :=
  null_fill union_stable union_stable_isSetUnion [table1, table2] 0 table1 (by decide)
    "score" ⟨table2, by decide, by decide⟩ (by decide)

/-- C5: the type map gives a column name the type it has in the first table of
the list that has a column of that name, whatever the later tables hold. -/
theorem type_provenance (tables : List DataFrame) (all_names : List String)
    (k : Nat) (df : DataFrame) (hk : tables[k]? = some df)
    (c : String) (v : RVector) (hv : getNamed df.columns c = some v)
    (hfirst : ∀ j d, j < k → tables[j]? = some d → c ∉ names d.columns) :
    (get_column_types tables all_names).find c = some (TYPEOF v) :=
  find_scan_frames_first c v tables [] k df rfl hk hv hfirst

theorem type_provenance_witness :
    (get_column_types [table1, table2, table3] []).find "id" = some .INTSXP :=
  type_provenance [table1, table2, table3] [] 0 table1 (by decide) "id"
    (.IntegerVector [some 1, some 2]) (by decide) (by intro j d hj; cases hj)

/-- C6: for well-formed tables the output has as many tables as the input, and
output table `i` is made from input table `i`: each of its columns has the row
count of input table `i` as its length, and a column of it under a name of
input table `i` is that table's column. -/
theorem row_count_preserved (union_ : UnionFn) (tables : List DataFrame)
    (hwf : ∀ df ∈ tables, ∀ p ∈ df.columns, p.2.size = df.nrows) :
    ∃ out, stack_list union_ (ofFrames tables) = .ok out ∧ out.length = tables.length ∧
      ∀ (i : Nat) (df : DataFrame), tables[i]? = some df → ∃ t, out[i]? = some t ∧
        (∀ p ∈ t, p.2.size = df.nrows) ∧
        ∀ c col, c ∈ names df.columns → getNamed t c = some col →
          getNamed df.columns c = some col := by
  refine ⟨_, stack_list_ofFrames union_ tables, by simp, ?_⟩
  intro i df hi
  refine ⟨_, out_getElem? _ _ tables i df hi, ?_, ?_⟩
  · intro p hp
    obtain ⟨c, _, rfl⟩ := List.mem_map.mp hp
    simp only [fill_column]
    cases hg : getNamed df.columns c with
    | some col => exact hwf df (List.getElem?_mem hi) _ (mem_of_getNamed c col _ hg)
    | none => exact size_na_column _ _
  · intro c col hc hcol
    obtain ⟨v, hv⟩ := exists_getNamed_of_mem c _ hc
    have := eq_of_getNamed_map (fun n => fill_column df _ n) c col _ hcol
    simp only [fill_column, hv] at this
    rw [this, hv]

theorem row_count_preserved_witness :
    ∃ out, stack_list union_head (ofFrames [table1, table2]) = .ok out ∧
      out.length = [table1, table2].length ∧
      ∀ (i : Nat) (df : DataFrame), [table1, table2][i]? = some df → ∃ t, out[i]? = some t ∧
        (∀ p ∈ t, p.2.size = df.nrows) ∧
        ∀ c col, c ∈ names df.columns → getNamed t c = some col →
          getNamed df.columns c = some col :=
  row_count_preserved union_head [table1, table2] (by decide)

/-! ## Failures -/

/-- C8 does not hold of the code: the guard for an argument that is no list
never fires. The argument reaches the body converted to a list, so the scalar
42 is the list of one element 42 and fails as a list with an element that is
no data frame, an empty vector gives the empty result, and no argument at all
gives "Input should be a plain list of dataframe items to be stacked". -/
theorem not_a_list_guard_dead (union_ : UnionFn) :
    stack_list union_ (.Vector (.NumericVector [some 42]))
        = .error "All list elements must be data frames" ∧
    stack_list union_ (.Vector (.NumericVector [])) = .ok [] ∧
    ∀ arg, stack_list union_ arg
        ≠ .error "Input should be a plain list of dataframe items to be stacked" := by
  refine ⟨rfl, rfl, ?_⟩
  intro arg h
  rw [stack_list_as_List] at h
  obtain ⟨elems, he⟩ := as_List_isList arg
  rw [he] at h
  have := (stack_list_GenericVector_cases union_ elems).2.2 _ h
  revert this
  decide

/-! ## Types of the filled columns -/

/-- C9: a table with no rows that lacks a name `c` of the name union makes no
failure: its output table has a column `c` with no elements, of the kind
recorded for `c` when that is integer, double, string or logical, and of kind
double otherwise. -/
theorem zero_row_column (union_ : UnionFn) (hU : IsSetUnion union_)
    (tables : List DataFrame) (i : Nat) (df : DataFrame) (hi : tables[i]? = some df)
    (h0 : df.nrows = 0)
    (c : String) (hc : ∃ d ∈ tables, c ∈ names d.columns) (hmiss : c ∉ names df.columns) :
    ∃ out t col, stack_list union_ (ofFrames tables) = .ok out ∧ out[i]? = some t ∧
      getNamed t c = some col ∧ col.size = 0 ∧
      ((get_column_types tables (names t)).at c = .INTSXP → TYPEOF col = .INTSXP) ∧
      ((get_column_types tables (names t)).at c = .REALSXP → TYPEOF col = .REALSXP) ∧
      ((get_column_types tables (names t)).at c = .STRSXP → TYPEOF col = .STRSXP) ∧
      ((get_column_types tables (names t)).at c = .LGLSXP → TYPEOF col = .LGLSXP) ∧
      ((get_column_types tables (names t)).at c ≠ .INTSXP →
        (get_column_types tables (names t)).at c ≠ .REALSXP →
        (get_column_types tables (names t)).at c ≠ .STRSXP →
        (get_column_types tables (names t)).at c ≠ .LGLSXP → TYPEOF col = .REALSXP) := by
  have hmem : c ∈ unite union_ tables [] := by
    rw [mem_unite union_ hU tables [] c]
    exact Or.inr hc
  refine ⟨_, _, _, stack_list_ofFrames union_ tables, out_getElem? _ _ tables i df hi,
    getNamed_process_df _ _ _ _ hmem, ?_, ?_⟩
  · simp only [fill_column, getNamed_of_not_mem c _ hmiss]
    rw [size_na_column, h0]
  · simp only [fill_column, getNamed_of_not_mem c _ hmiss]
    exact TYPEOF_na_column _ _

theorem zero_row_column_witness :
    ∃ out t col, stack_list union_stable (ofFrames [table1, table0]) = .ok out ∧
      out[1]? = some t ∧ getNamed t "name" = some col ∧ col.size = 0 ∧
      ((get_column_types [table1, table0] (names t)).at "name" = .INTSXP →
        TYPEOF col = .INTSXP) ∧
      ((get_column_types [table1, table0] (names t)).at "name" = .REALSXP →
        TYPEOF col = .REALSXP) ∧
      ((get_column_types [table1, table0] (names t)).at "name" = .STRSXP →
        TYPEOF col = .STRSXP) ∧
      ((get_column_types [table1, table0] (names t)).at "name" = .LGLSXP →
        TYPEOF col = .LGLSXP) ∧
      ((get_column_types [table1, table0] (names t)).at "name" ≠ .INTSXP →
        (get_column_types [table1, table0] (names t)).at "name" ≠ .REALSXP →
        (get_column_types [table1, table0] (names t)).at "name" ≠ .STRSXP →
        (get_column_types [table1, table0] (names t)).at "name" ≠ .LGLSXP →
        TYPEOF col = .REALSXP) :=
  zero_row_column union_stable union_stable_isSetUnion [table1, table0] 1 table0
    (by decide) (by decide) "name" ⟨table1, by decide, by decide⟩ (by decide)

/-- C10, as stated, fails: of the tables `{id: integers, name}` and
`{id: strings}` the first output table has `id` as an integer column and the
second has it as a string column. -/
theorem type_consistency_fails :
    ∃ out t1 t2 c1 c2, stack_list union_stable (ofFrames [table1, table3]) = .ok out ∧
      out[0]? = some t1 ∧ out[1]? = some t2 ∧
      getNamed t1 "id" = some c1 ∧ getNamed t2 "id" = some c2 ∧
      TYPEOF c1 = .INTSXP ∧ TYPEOF c2 = .STRSXP ∧ TYPEOF c1 ≠ TYPEOF c2 :=
  ⟨[[("id", .IntegerVector [some 1, some 2]), ("name", .CharacterVector [some "a", some "b"])],
    [("id", .CharacterVector [some "x"]), ("name", .CharacterVector [none])]],
   [("id", .IntegerVector [some 1, some 2]), ("name", .CharacterVector [some "a", some "b"])],
   [("id", .CharacterVector [some "x"]), ("name", .CharacterVector [none])],
   .IntegerVector [some 1, some 2], .CharacterVector [some "x"],
   by decide, by decide, by decide, by decide, by decide, by decide, by decide, by decide⟩

/-- C10, amended: a name `c` of the name union that every input table holding
it holds with one and the same kind `T`, `T` being integer, double, string or
logical, is a column of kind `T` in every output table. -/
theorem type_consistency (union_ : UnionFn) (hU : IsSetUnion union_)
    (tables : List DataFrame) (c : String) (T : SEXPTYPE)
    (hc : ∃ d ∈ tables, c ∈ names d.columns)
    (hT : ∀ d ∈ tables, ∀ v, getNamed d.columns c = some v → TYPEOF v = T)
    (hprim : T = .INTSXP ∨ T = .REALSXP ∨ T = .STRSXP ∨ T = .LGLSXP) :
    ∃ out, stack_list union_ (ofFrames tables) = .ok out ∧
      ∀ t ∈ out, ∃ col, getNamed t c = some col ∧ TYPEOF col = T := by
  have hmem : c ∈ unite union_ tables [] := by
    rw [mem_unite union_ hU tables [] c]
    exact Or.inr hc
  have hfind : (get_column_types tables (unite union_ tables [])).at c = T := by
    have := find_scan_frames_typed c T tables hT [] (Or.inl rfl) (Or.inr hc)
    simp [ColTypes.at, get_column_types, this]
  refine ⟨_, stack_list_ofFrames union_ tables, ?_⟩
  intro t ht
  obtain ⟨df, hdf, rfl⟩ := List.mem_map.mp ht
  refine ⟨_, getNamed_process_df _ _ _ _ hmem, ?_⟩
  simp only [fill_column]
  cases hg : getNamed df.columns c with
  | some col => exact hT df hdf col hg
  | none =>
    simp only [hfind]
    have h := TYPEOF_na_column T df.nrows
    rcases hprim with e | e | e | e
    · rw [h.1 e, e]
    · rw [h.2.1 e, e]
    · rw [h.2.2.1 e, e]
    · rw [h.2.2.2.1 e, e]

theorem type_consistency_witness :
    ∃ out, stack_list union_stable (ofFrames [table1, table2]) = .ok out ∧
      ∀ t ∈ out, ∃ col, getNamed t "score" = some col ∧ TYPEOF col = .REALSXP :=
  type_consistency union_stable union_stable_isSetUnion [table1, table2] "score" .REALSXP
    ⟨table2, by decide, by decide⟩ (by decide) (by decide)

/-! ## The type map and the name union -/

theorem find_scan_columns_origin (c : String) (T : SEXPTYPE) (cols : NamedList)
    (m : ColTypes) (h : (scan_columns m cols).find c = some T) :
    m.find c = some T ∨ ∃ v, getNamed cols c = some v ∧ T = TYPEOF v := by
  cases hm : m.find c with
  | some T0 =>
    rw [find_scan_columns_of_some c T0 cols m hm] at h
    exact Or.inl h
  | none =>
    by_cases hc : c ∈ names cols
    · obtain ⟨v, hv⟩ := exists_getNamed_of_mem c cols hc
      rw [find_scan_columns_of_getNamed c v cols m hm hv] at h
      exact Or.inr ⟨v, hv, (Option.some.inj h).symm⟩
    · rw [find_scan_columns_of_not_mem c cols m hm hc] at h
      cases h

theorem find_scan_frames_origin (c : String) (T : SEXPTYPE) (tables : List DataFrame) :
    ∀ m : ColTypes, (scan_frames m tables).find c = some T →
      m.find c = some T ∨ ∃ d ∈ tables, ∃ v, getNamed d.columns c = some v ∧ T = TYPEOF v := by
  induction tables with
  | nil => intro m h; exact Or.inl h
  | cons t ts ih =>
    intro m h
    rcases ih _ h with h1 | ⟨d, hd, v, hv, hT⟩
    · rcases find_scan_columns_origin c T t.columns m h1 with h2 | ⟨v, hv, hT⟩
      · exact Or.inl h2
      · exact Or.inr ⟨t, List.mem_cons_self _ _, v, hv, hT⟩
    · exact Or.inr ⟨d, List.mem_cons_of_mem _ hd, v, hv, hT⟩

theorem find_scan_frames_isSome (c : String) (tables : List DataFrame) :
    ∀ m : ColTypes, (∃ d ∈ tables, c ∈ names d.columns) →
      ∃ T, (scan_frames m tables).find c = some T := by
  induction tables with
  | nil => rintro m ⟨d, hd, _⟩; cases hd
  | cons t ts ih =>
    rintro m ⟨d, hd, hc⟩
    simp only [scan_frames]
    rcases List.mem_cons.mp hd with rfl | hd
    · obtain ⟨v, hv⟩ := exists_getNamed_of_mem c _ hc
      cases hm : m.find c with
      | some T0 =>
        exact ⟨T0, find_scan_frames_of_some c T0 ts _
          (find_scan_columns_of_some c T0 _ m hm)⟩
      | none =>
        exact ⟨TYPEOF v, find_scan_frames_of_some c _ ts _
          (find_scan_columns_of_getNamed c v _ m hm hv)⟩
    · exact ih _ ⟨d, hd, hc⟩

/-- C11: the keys of the type map are exactly the names of the name union that
`stack_list` gives its output tables, and the entry of each such name is the
kind of a column of that name in some input table. -/
theorem type_map_domain (union_ : UnionFn) (hU : IsSetUnion union_)
    (tables : List DataFrame) :
    ∃ out all_names, stack_list union_ (ofFrames tables) = .ok out ∧
      (∀ t ∈ out, names t = all_names) ∧
      (∀ c, c ∈ all_names ↔ ∃ T, (get_column_types tables all_names).find c = some T) ∧
      ∀ c ∈ all_names, ∃ d ∈ tables, ∃ v, getNamed d.columns c = some v ∧
        (get_column_types tables all_names).find c = some (TYPEOF v) ∧
        (get_column_types tables all_names).at c = TYPEOF v := by
  have horigin : ∀ c T, (get_column_types tables (unite union_ tables [])).find c = some T →
      ∃ d ∈ tables, ∃ v, getNamed d.columns c = some v ∧ T = TYPEOF v := by
    intro c T h
    rcases find_scan_frames_origin c T tables [] h with h0 | h1
    · cases h0
    · exact h1
  refine ⟨_, unite union_ tables [], stack_list_ofFrames union_ tables, ?_, ?_, ?_⟩
  · intro t ht
    obtain ⟨df, _, rfl⟩ := List.mem_map.mp ht
    exact names_process_df _ _ _
  · intro c
    rw [mem_unite union_ hU tables [] c]
    constructor
    · rintro (h | h)
      · cases h
      · exact find_scan_frames_isSome c tables [] h
    · rintro ⟨T, hT⟩
      obtain ⟨d, hd, v, hv, _⟩ := horigin c T hT
      exact Or.inr ⟨d, hd, mem_names_of_getNamed c v _ hv⟩
  · intro c hc
    rw [mem_unite union_ hU tables [] c] at hc
    rcases hc with h | h
    · cases h
    · obtain ⟨T, hT⟩ := find_scan_frames_isSome c tables [] h
      obtain ⟨d, hd, v, hv, hTv⟩ := horigin c T hT
      refine ⟨d, hd, v, hv, ?_, ?_⟩
      · rw [← hTv]; exact hT
      · simp only [ColTypes.at]
        rw [show (get_column_types tables (unite union_ tables [])).find c = some T from hT]
        simp [hTv]

theorem type_map_domain_witness :
    ∃ out all_names, stack_list union_stable (ofFrames [table1, table2]) = .ok out ∧
      (∀ t ∈ out, names t = all_names) ∧
      (∀ c, c ∈ all_names ↔
        ∃ T, (get_column_types [table1, table2] all_names).find c = some T) ∧
      ∀ c ∈ all_names, ∃ d ∈ [table1, table2], ∃ v, getNamed d.columns c = some v ∧
        (get_column_types [table1, table2] all_names).find c = some (TYPEOF v) ∧
        (get_column_types [table1, table2] all_names).at c = TYPEOF v :=
  type_map_domain union_stable union_stable_isSetUnion [table1, table2]

/-! ## Empty and absent arguments -/

/-- C12: `stack_list` of the empty list is the empty list, and of a `NULL`
argument it is the empty list too, with no failure. -/
theorem empty_list_identity (union_ : UnionFn) :
    stack_list union_ (.GenericVector []) = .ok [] ∧ stack_list union_ .NULL = .ok [] :=
  ⟨rfl, rfl⟩

/-! ## The scenario of the specification -/

theorem unite_scenario_mem (union_ : UnionFn) (hU : IsSetUnion union_) (c : String) :
    c ∈ unite union_ [table1, tableScore] [] ↔ c ∈ ["id", "name", "score"] := by
  rw [mem_unite union_ hU _ [] c]
  constructor
  · rintro (h | ⟨d, hd, hc⟩)
    · cases h
    · simp only [List.mem_cons, List.mem_singleton, List.not_mem_nil, or_false] at hd
      rcases hd with rfl | rfl
      · simp only [names, table1, List.map_cons, List.map_nil, List.mem_cons,
          List.not_mem_nil, or_false] at hc
        simp only [List.mem_cons, List.not_mem_nil, or_false]
        tauto
      · simp only [names, tableScore, List.map_cons, List.map_nil, List.mem_cons,
          List.not_mem_nil, or_false] at hc
        simp only [List.mem_cons, List.not_mem_nil, or_false]
        tauto
  · intro h
    simp only [List.mem_cons, List.not_mem_nil, or_false] at h
    right
    rcases h with rfl | rfl | rfl
    · exact ⟨table1, List.mem_cons_self _ _, by decide⟩
    · exact ⟨table1, List.mem_cons_self _ _, by decide⟩
    · exact ⟨tableScore, List.mem_cons_of_mem _ (List.mem_cons_self _ _), by decide⟩

/-- C13, as stated, fails: with a set union that hands the names back in the
order of a head-linking hash set, the two tables of the scenario come out with
the column order `score, id, name`, not `id, name, score`. -/
theorem concrete_scenario_order_fails :
    IsSetUnion union_head ∧
    ∃ out, stack_list union_head (ofFrames [table1, tableScore]) = .ok out ∧
      out =
        [[("score", .NumericVector [none, none]), ("id", .IntegerVector [some 1, some 2]),
          ("name", .CharacterVector [some "a", some "b"])],
         [("score", .NumericVector [some 9.5]), ("id", .IntegerVector [some 3]),
          ("name", .CharacterVector [none])]] ∧
      ∀ t ∈ out, names t ≠ ["id", "name", "score"] := by
  refine ⟨union_head_isSetUnion, _, stack_list_ofFrames _ _, rfl, ?_⟩
  intro t ht
  obtain ⟨df, _, rfl⟩ := List.mem_map.mp ht
  rw [names_process_df]
  decide

/-- C13, amended: for the tables `{id: [1, 2], name: ["a", "b"]}` and
`{id: [3], score: [9.5]}` the result is two tables with one and the same
column names, which are `id`, `name` and `score` in some order; under these
names the first holds `[1, 2]`, `["a", "b"]` and two missing doubles, the second
`[3]`, one missing string and `[9.5]`. With a union that keeps the order of
first appearance the column order is `id, name, score` in both. -/
theorem concrete_scenario (union_ : UnionFn) (hU : IsSetUnion union_) :
    ∃ t1 t2, stack_list union_ (ofFrames [table1, tableScore]) = .ok [t1, t2] ∧
      names t1 = names t2 ∧ (names t1).Perm ["id", "name", "score"] ∧
      getNamed t1 "id" = some (.IntegerVector [some 1, some 2]) ∧
      getNamed t1 "name" = some (.CharacterVector [some "a", some "b"]) ∧
      getNamed t1 "score" = some (.NumericVector [none, none]) ∧
      getNamed t2 "id" = some (.IntegerVector [some 3]) ∧
      getNamed t2 "name" = some (.CharacterVector [none]) ∧
      getNamed t2 "score" = some (.NumericVector [some 9.5]) ∧
      ((∀ a b : List String, a.Nodup → union_ a b = appendNew a b) →
        t1 = [("id", .IntegerVector [some 1, some 2]),
              ("name", .CharacterVector [some "a", some "b"]),
              ("score", .NumericVector [none, none])] ∧
        t2 = [("id", .IntegerVector [some 3]), ("name", .CharacterVector [none]),
              ("score", .NumericVector [some 9.5])]) := by
  have hid : "id" ∈ unite union_ [table1, tableScore] [] :=
    (unite_scenario_mem union_ hU "id").mpr (by decide)
  have hname : "name" ∈ unite union_ [table1, tableScore] [] :=
    (unite_scenario_mem union_ hU "name").mpr (by decide)
  have hscore : "score" ∈ unite union_ [table1, tableScore] [] :=
    (unite_scenario_mem union_ hU "score").mpr (by decide)
  refine ⟨_, _, stack_list_ofFrames union_ [table1, tableScore], ?_, ?_, ?_, ?_, ?_, ?_, ?_,
    ?_, ?_⟩
  · rw [names_process_df, names_process_df]
  · rw [names_process_df]
    exact (List.perm_ext_iff_of_nodup (unite_nodup union_ hU _ [] List.nodup_nil)
      (by decide)).mpr (unite_scenario_mem union_ hU)
  · rw [getNamed_process_df _ _ _ _ hid]; rfl
  · rw [getNamed_process_df _ _ _ _ hname]; rfl
  · rw [getNamed_process_df _ _ _ _ hscore]; rfl
  · rw [getNamed_process_df _ _ _ _ hid]; rfl
  · rw [getNamed_process_df _ _ _ _ hname]; rfl
  · rw [getNamed_process_df _ _ _ _ hscore]; rfl
  · intro hS
    rw [unite_eq_NameUnion union_ hS [table1, tableScore] [] List.nodup_nil]
    exact ⟨rfl, rfl⟩

theorem concrete_scenario_witness :
    ∃ t1 t2, stack_list union_stable (ofFrames [table1, tableScore]) = .ok [t1, t2] ∧
      names t1 = names t2 ∧ (names t1).Perm ["id", "name", "score"] ∧
      getNamed t1 "id" = some (.IntegerVector [some 1, some 2]) ∧
      getNamed t1 "name" = some (.CharacterVector [some "a", some "b"]) ∧
      getNamed t1 "score" = some (.NumericVector [none, none]) ∧
      getNamed t2 "id" = some (.IntegerVector [some 3]) ∧
      getNamed t2 "name" = some (.CharacterVector [none]) ∧
      getNamed t2 "score" = some (.NumericVector [some 9.5]) ∧
      ((∀ a b : List String, a.Nodup → union_stable a b = appendNew a b) →
        t1 = [("id", .IntegerVector [some 1, some 2]),
              ("name", .CharacterVector [some "a", some "b"]),
              ("score", .NumericVector [none, none])] ∧
        t2 = [("id", .IntegerVector [some 3]), ("name", .CharacterVector [none]),
              ("score", .NumericVector [some 9.5])]) :=
  concrete_scenario union_stable union_stable_isSetUnion

/-! ## What the validation looks at -/

theorem appendNew_of_subset (xs : List String) : ∀ seen : List String,
    (∀ x ∈ xs, x ∈ seen) → appendNew seen xs = seen := by
  induction xs with
  | nil => intro seen _; rfl
  | cons x xs ih =>
    intro seen h
    unfold appendNew
    rw [if_pos (h x (List.mem_cons_self _ _))]
    exact ih seen (fun y hy => h y (List.mem_cons_of_mem _ hy))

theorem appendNew_extra (xs : List String) : ∀ seen : List String,
    ∃ extra, appendNew seen xs = seen ++ extra ∧ ∀ x ∈ extra, x ∈ xs ∧ x ∉ seen := by
  induction xs with
  | nil => intro seen; exact ⟨[], by simp [appendNew], by simp⟩
  | cons x xs ih =>
    intro seen
    unfold appendNew
    by_cases hx : x ∈ seen
    · rw [if_pos hx]
      obtain ⟨extra, he, hp⟩ := ih seen
      exact ⟨extra, he, fun y hy => ⟨List.mem_cons_of_mem _ (hp y hy).1, (hp y hy).2⟩⟩
    · rw [if_neg hx]
      obtain ⟨extra, he, hp⟩ := ih (seen ++ [x])
      refine ⟨x :: extra, by simpa using he, ?_⟩
      intro y hy
      rcases List.mem_cons.mp hy with rfl | hy
      · exact ⟨List.mem_cons_self _ _, hx⟩
      · refine ⟨List.mem_cons_of_mem _ (hp y hy).1, ?_⟩
        intro hmem
        exact (hp y hy).2 (List.mem_append_left _ hmem)

theorem foldl_appendNew_nodup (tables : List DataFrame) : ∀ acc : List String, acc.Nodup →
    (tables.foldl (fun seen t => appendNew seen (names t.columns)) acc).Nodup := by
  induction tables with
  | nil => intro acc h; exact h
  | cons t ts ih => intro acc h; exact ih _ (appendNew_nodup _ _ h)

theorem mem_foldl_appendNew (tables : List DataFrame) : ∀ (acc : List String) (c : String),
    c ∈ tables.foldl (fun seen t => appendNew seen (names t.columns)) acc ↔
      c ∈ acc ∨ ∃ d ∈ tables, c ∈ names d.columns := by
  induction tables with
  | nil => intro acc c; simp
  | cons t ts ih =>
    intro acc c
    simp only [List.foldl_cons]
    rw [ih, mem_appendNew]
    simp only [List.mem_cons, exists_eq_or_imp]
    tauto

theorem unite_keeping (union_ : UnionFn)
    (hS : ∀ a b : List String, a.Nodup → union_ a b = appendNew a b)
    (tables : List DataFrame) : unite union_ tables [] = NameUnion tables :=
  unite_eq_NameUnion union_ hS tables [] List.nodup_nil

theorem NameUnion_nodup (tables : List DataFrame) : (NameUnion tables).Nodup :=
  foldl_appendNew_nodup tables [] List.nodup_nil

theorem mem_NameUnion (tables : List DataFrame) (c : String) :
    c ∈ NameUnion tables ↔ ∃ d ∈ tables, c ∈ names d.columns := by
  simp [NameUnion, mem_foldl_appendNew]

theorem unite_same_names (union_ : UnionFn)
    (hS : ∀ a b : List String, a.Nodup → union_ a b = appendNew a b)
    (A : List String) (hA : A.Nodup) (tables : List DataFrame)
    (h : ∀ d ∈ tables, names d.columns = A) : unite union_ tables A = A := by
  induction tables with
  | nil => rfl
  | cons t ts ih =>
    simp only [unite]
    rw [hS A _ hA, h t (List.mem_cons_self _ _), appendNew_of_subset A A (fun _ hx => hx)]
    exact ih (fun d hd => h d (List.mem_cons_of_mem _ hd))

theorem process_df_self (A : List String) (M M2 : ColTypes) (df d : DataFrame)
    (h : d.columns = process_df A M df) : process_df A M2 d = d.columns := by
  rw [h]
  unfold process_df
  apply List.map_congr_left
  intro c hc
  have hg : getNamed d.columns c = some (fill_column df M c) := by
    rw [h]
    exact getNamed_process_df A M df c hc
  simp [fill_column, hg]

theorem scan_frames_append (a b : List DataFrame) : ∀ m : ColTypes,
    scan_frames m (a ++ b) = scan_frames (scan_frames m a) b := by
  induction a with
  | nil => intro m; rfl
  | cons t ts ih => intro m; simp only [List.cons_append, scan_frames]; exact ih _

theorem retagged_keeping (union_ : UnionFn)
    (hS : ∀ a b : List String, a.Nodup → union_ a b = appendNew a b)
    (ts : List DataFrame) (out : List NamedList)
    (h : stack_list union_ (ofFrames ts) = .ok out)
    (ts2 : List DataFrame) (h2 : ts2.map DataFrame.columns = out) :
    stack_list union_ (ofFrames ts2) = .ok out := by
  rw [stack_list_ofFrames] at h
  have hout := Except.ok.inj h
  rw [unite_keeping union_ hS ts] at hout
  rw [stack_list_ofFrames]
  have hcols : ∀ d ∈ ts2, ∃ df, d.columns
      = process_df (NameUnion ts) (get_column_types ts (NameUnion ts)) df := by
    intro d hd
    have hmem : d.columns ∈ out := by
      rw [← h2]
      exact List.mem_map.mpr ⟨d, hd, rfl⟩
    rw [← hout] at hmem
    obtain ⟨df, _, hdf⟩ := List.mem_map.mp hmem
    exact ⟨df, hdf.symm⟩
  have hnames : ∀ d ∈ ts2, names d.columns = NameUnion ts := by
    intro d hd
    obtain ⟨df, hdf⟩ := hcols d hd
    rw [hdf, names_process_df]
  have hunite : ts2 ≠ [] → unite union_ ts2 [] = NameUnion ts := by
    intro hne
    cases ts2 with
    | nil => exact absurd rfl hne
    | cons d rest =>
      simp only [unite]
      rw [hS [] _ List.nodup_nil, hnames d (List.mem_cons_self _ _),
        appendNew_nil_of_nodup _ (NameUnion_nodup ts)]
      exact unite_same_names union_ hS _ (NameUnion_nodup ts) rest
        (fun e he => hnames e (List.mem_cons_of_mem _ he))
  congr 1
  rw [← h2]
  by_cases hne : ts2 = []
  · subst hne
    rfl
  · rw [hunite hne]
    apply List.map_congr_left
    intro d hd
    obtain ⟨df, hdf⟩ := hcols d hd
    exact process_df_self _ _ _ df d hdf

theorem unite_retagged_mem (union_ : UnionFn) (hU : IsSetUnion union_) (A : List String)
    (ts2 : List DataFrame) (hne : ts2 ≠ []) (h : ∀ d ∈ ts2, names d.columns = A) (c : String) :
    c ∈ unite union_ ts2 [] ↔ c ∈ A := by
  rw [mem_unite union_ hU ts2 [] c]
  constructor
  · rintro (h0 | ⟨d, hd, hc⟩)
    · cases h0
    · rw [h d hd] at hc
      exact hc
  · intro hc
    cases ts2 with
    | nil => exact absurd rfl hne
    | cons d rest =>
      refine Or.inr ⟨d, List.mem_cons_self _ _, ?_⟩
      rw [h d (List.mem_cons_self _ _)]
      exact hc

/-- C15, as stated, fails. The output for the one table `{id, name}` is a list
holding a plain named list, and `stack_list` refuses it as an argument. And
with a set union that hands the names back in the order of a head-linking hash
set, the output taken as a data frame again comes back with its columns in
another order. -/
theorem idempotence_fails :
    (∃ out, stack_list union_stable (ofFrames [table1]) = .ok out ∧
      stack_list union_stable (ofOutput out)
        = .error "All list elements must be data frames") ∧
    IsSetUnion union_head ∧
    ∃ o o2, stack_list union_head (ofFrames [table1]) = .ok [o] ∧
      stack_list union_head (ofFrames [⟨o, 2⟩]) = .ok [o2] ∧
      names o = ["name", "id"] ∧ names o2 = ["id", "name"] ∧ o2 ≠ o :=
  ⟨⟨[[("id", .IntegerVector [some 1, some 2]),
      ("name", .CharacterVector [some "a", some "b"])]], by decide, by decide⟩,
    union_head_isSetUnion,
    [("name", .CharacterVector [some "a", some "b"]), ("id", .IntegerVector [some 1, some 2])],
    [("id", .IntegerVector [some 1, some 2]), ("name", .CharacterVector [some "a", some "b"])],
    by decide, by decide, by decide, by decide, by decide⟩

/-- C15, amended: `stack_list` applied to the tables of its own output, taken
as data frames, returns as many tables; each has the column names of the
former output table, every one once, and under every name the same column.
With a union that keeps the order of first appearance it returns the former
output unchanged. -/
theorem idempotent_on_retagged (union_ : UnionFn) (hU : IsSetUnion union_)
    (ts : List DataFrame) (out : List NamedList)
    (h : stack_list union_ (ofFrames ts) = .ok out)
    (ts2 : List DataFrame) (h2 : ts2.map DataFrame.columns = out) :
    ∃ out2, stack_list union_ (ofFrames ts2) = .ok out2 ∧ out2.length = out.length ∧
      (∀ (i : Nat) (o : NamedList), out[i]? = some o → ∃ o2, out2[i]? = some o2 ∧
        (names o2).Perm (names o) ∧ ∀ c, getNamed o2 c = getNamed o c) ∧
      ((∀ a b : List String, a.Nodup → union_ a b = appendNew a b) → out2 = out) := by
  have hkeep : (∀ a b : List String, a.Nodup → union_ a b = appendNew a b) →
      stack_list union_ (ofFrames ts2) = .ok out :=
    fun hS => retagged_keeping union_ hS ts out h ts2 h2
  rw [stack_list_ofFrames] at h
  have hout := Except.ok.inj h
  have hA := unite_nodup union_ hU ts [] List.nodup_nil
  have hcols : ∀ d ∈ ts2, ∃ df, d.columns
      = process_df (unite union_ ts []) (get_column_types ts (unite union_ ts [])) df := by
    intro d hd
    have hmem : d.columns ∈ out := by
      rw [← h2]
      exact List.mem_map.mpr ⟨d, hd, rfl⟩
    rw [← hout] at hmem
    obtain ⟨df, _, hdf⟩ := List.mem_map.mp hmem
    exact ⟨df, hdf.symm⟩
  have hnames : ∀ d ∈ ts2, names d.columns = unite union_ ts [] := by
    intro d hd
    obtain ⟨df, hdf⟩ := hcols d hd
    rw [hdf, names_process_df]
  refine ⟨_, stack_list_ofFrames union_ ts2, ?_, ?_, ?_⟩
  · rw [← h2]
    simp
  · intro i o hi
    rw [← h2, List.getElem?_map] at hi
    cases hd : ts2[i]? with
    | none => rw [hd] at hi; cases hi
    | some d =>
      rw [hd] at hi
      have ho : d.columns = o := Option.some.inj hi
      have hdmem : d ∈ ts2 := List.getElem?_mem hd
      have hne : ts2 ≠ [] := List.ne_nil_of_mem hdmem
      have hmemiff := unite_retagged_mem union_ hU _ ts2 hne hnames
      refine ⟨_, out_getElem? _ _ ts2 i d hd, ?_, ?_⟩
      · rw [names_process_df, ← ho, hnames d hdmem]
        exact (List.perm_ext_iff_of_nodup (unite_nodup union_ hU ts2 [] List.nodup_nil)
          hA).mpr hmemiff
      · intro c
        rw [← ho]
        by_cases hc : c ∈ unite union_ ts2 []
        · rw [getNamed_process_df _ _ _ _ hc]
          obtain ⟨v, hv⟩ := exists_getNamed_of_mem c d.columns
            (by rw [hnames d hdmem]; exact (hmemiff c).mp hc)
          simp [fill_column, hv]
        · have h1 : c ∉ names d.columns := by
            rw [hnames d hdmem]
            exact fun hx => hc ((hmemiff c).mpr hx)
          have h2 : c ∉ names (process_df (unite union_ ts2 [])
              (get_column_types ts2 (unite union_ ts2 [])) d) := by
            rw [names_process_df]
            exact hc
          rw [getNamed_of_not_mem c _ h1, getNamed_of_not_mem c _ h2]
  · intro hS
    have := hkeep hS
    rw [stack_list_ofFrames] at this
    exact Except.ok.inj this

theorem idempotent_on_retagged_witness :
    ∃ out2, stack_list union_stable (ofFrames retaggedSample) = .ok out2 ∧
      out2.length = outputSample.length ∧
      (∀ (i : Nat) (o : NamedList), outputSample[i]? = some o → ∃ o2, out2[i]? = some o2 ∧
        (names o2).Perm (names o) ∧ ∀ c, getNamed o2 c = getNamed o c) ∧
      out2 = outputSample := by
  obtain ⟨out2, h, hlen, hname, hkeep⟩ :=
    idempotent_on_retagged union_stable union_stable_isSetUnion [table1, table2]
      outputSample (by decide) retaggedSample (by decide)
  exact ⟨out2, h, hlen, hname, hkeep union_stable_eq⟩

/-- C16, as stated, fails: with a set union that hands the names back in the
order of a head-linking hash set, the output for `{id, name}` has the columns
`name, id`; after the table `{id, score}` is appended it has `score, id, name`,
and after `{id, name}` itself is appended, which brings no new name, it has
`id, name`. In both cases the first two columns are not the former output. -/
theorem prefix_stability_fails :
    IsSetUnion union_head ∧
    ∃ o o2 o3 r2 r3, stack_list union_head (ofFrames [table1]) = .ok [o] ∧
      stack_list union_head (ofFrames ([table1] ++ [table2])) = .ok [o2, r2] ∧
      stack_list union_head (ofFrames ([table1] ++ [table1])) = .ok [o3, r3] ∧
      names o = ["name", "id"] ∧ names o2 = ["score", "id", "name"] ∧
      names o3 = ["id", "name"] ∧ o2.take o.length ≠ o ∧ o3 ≠ o :=
  ⟨union_head_isSetUnion, _, _, _, _, _, stack_list_ofFrames _ _, stack_list_ofFrames _ _,
    stack_list_ofFrames _ _, by decide, by decide, by decide, by decide, by decide⟩

theorem prefix_keeping (union_ : UnionFn)
    (hS : ∀ a b : List String, a.Nodup → union_ a b = appendNew a b)
    (ts : List DataFrame) (t : DataFrame) :
    ∃ out out2 extra, stack_list union_ (ofFrames ts) = .ok out ∧
      stack_list union_ (ofFrames (ts ++ [t])) = .ok out2 ∧
      (∀ c ∈ extra, c ∈ names t.columns ∧ ∀ d ∈ ts, c ∉ names d.columns) ∧
      ((∀ c ∈ names t.columns, ∃ d ∈ ts, c ∈ names d.columns) → extra = []) ∧
      ∀ (i : Nat) (df : DataFrame), ts[i]? = some df → ∃ o o2, out[i]? = some o ∧
        out2[i]? = some o2 ∧ names o = NameUnion ts ∧
        o2 = o ++ extra.map (fun c =>
          (c, na_column ((get_column_types (ts ++ [t]) (names o2)).at c) df.nrows)) := by
  obtain ⟨extra, hextra, hprop⟩ := appendNew_extra (names t.columns) (NameUnion ts)
  have hA2 : NameUnion (ts ++ [t]) = NameUnion ts ++ extra := by
    rw [← hextra]
    simp [NameUnion, List.foldl_append]
  have hnew : ∀ c ∈ extra, c ∈ names t.columns ∧ ∀ d ∈ ts, c ∉ names d.columns := by
    intro c hc
    refine ⟨(hprop c hc).1, ?_⟩
    intro d hd hcd
    exact (hprop c hc).2 ((mem_NameUnion ts c).mpr ⟨d, hd, hcd⟩)
  refine ⟨_, _, extra, stack_list_ofFrames union_ ts, stack_list_ofFrames union_ (ts ++ [t]),
    hnew, ?_, ?_⟩
  · intro hall
    cases extra with
    | nil => rfl
    | cons c rest =>
      exfalso
      have hc := hnew c (List.mem_cons_self _ _)
      obtain ⟨d, hd, hcd⟩ := hall c hc.1
      exact hc.2 d hd hcd
  · intro i df hi
    have hi2 : (ts ++ [t])[i]? = some df := by
      obtain ⟨hlt, _⟩ := List.getElem?_eq_some.mp hi
      rw [List.getElem?_append_left hlt]
      exact hi
    refine ⟨_, _, out_getElem? _ _ ts i df hi, out_getElem? _ _ (ts ++ [t]) i df hi2, ?_, ?_⟩
    · rw [names_process_df, unite_keeping union_ hS ts]
    · rw [unite_keeping union_ hS ts, unite_keeping union_ hS (ts ++ [t]), hA2]
      simp only [process_df, List.map_append]
      congr 1
      · apply List.map_congr_left
        intro c hc
        have hfind : (scan_frames [] (ts ++ [t])).at c = (scan_frames [] ts).at c := by
          obtain ⟨T, hT⟩ := find_scan_frames_isSome c ts [] ((mem_NameUnion ts c).mp hc)
          simp only [ColTypes.at]
          rw [scan_frames_append, find_scan_frames_of_some c T [t] _ hT, hT]
        simp only [fill_column, get_column_types, hfind]
      · apply List.map_congr_left
        intro c hc
        have hmiss : c ∉ names df.columns :=
          (hnew c hc).2 df (List.getElem?_mem hi)
        simp only [fill_column, getNamed_of_not_mem c _ hmiss, get_column_types]

theorem fill_column_append (ts : List DataFrame) (t df : DataFrame) (c : String)
    (hc : ∃ d ∈ ts, c ∈ names d.columns) (X Y : List String) :
    fill_column df (get_column_types (ts ++ [t]) X) c
      = fill_column df (get_column_types ts Y) c := by
  have hfind : (scan_frames [] (ts ++ [t])).at c = (scan_frames [] ts).at c := by
    obtain ⟨T, hT⟩ := find_scan_frames_isSome c ts [] hc
    simp only [ColTypes.at]
    rw [scan_frames_append, find_scan_frames_of_some c T [t] _ hT, hT]
  simp only [fill_column, get_column_types, hfind]

/-- C16, amended: appending a table `t` leaves every earlier output table as
it was under each of its names: the output table then has the former names and
the names of `t`, under every former name the former column, and under every
other name a column of missing values of the length of the table; when `t`
brings no new name it has the former names and the former columns. With a
union that keeps the order of first appearance the former columns are its
first columns in their order, followed by the columns for the new names, so
that with no new name the output table is unchanged. -/
theorem prefix_stability (union_ : UnionFn) (hU : IsSetUnion union_)
    (ts : List DataFrame) (t : DataFrame) :
    ∃ out out2, stack_list union_ (ofFrames ts) = .ok out ∧
      stack_list union_ (ofFrames (ts ++ [t])) = .ok out2 ∧
      (∀ (i : Nat) (df : DataFrame), ts[i]? = some df → ∃ o o2, out[i]? = some o ∧
        out2[i]? = some o2 ∧ (names o2).Nodup ∧
        (∀ c, c ∈ names o2 ↔ c ∈ names o ∨ c ∈ names t.columns) ∧
        (∀ c ∈ names o, getNamed o2 c = getNamed o c) ∧
        (∀ c ∈ names o2, c ∉ names o → getNamed o2 c = some
          (na_column ((get_column_types (ts ++ [t]) (names o2)).at c) df.nrows)) ∧
        ((∀ c ∈ names t.columns, ∃ d ∈ ts, c ∈ names d.columns) →
          (names o2).Perm (names o) ∧ ∀ c, getNamed o2 c = getNamed o c)) ∧
      ((∀ a b : List String, a.Nodup → union_ a b = appendNew a b) →
        ∃ extra, (∀ c ∈ extra, c ∈ names t.columns ∧ ∀ d ∈ ts, c ∉ names d.columns) ∧
          ((∀ c ∈ names t.columns, ∃ d ∈ ts, c ∈ names d.columns) → extra = []) ∧
          ∀ (i : Nat) (df : DataFrame), ts[i]? = some df → ∃ o o2, out[i]? = some o ∧
            out2[i]? = some o2 ∧ names o = NameUnion ts ∧
            o2 = o ++ extra.map (fun c =>
              (c, na_column ((get_column_types (ts ++ [t]) (names o2)).at c) df.nrows))) := by
  have hmemA : ∀ c, c ∈ unite union_ ts [] ↔ ∃ d ∈ ts, c ∈ names d.columns := by
    intro c
    rw [mem_unite union_ hU ts [] c]
    simp
  have hmemA2 : ∀ c, c ∈ unite union_ (ts ++ [t]) [] ↔
      c ∈ unite union_ ts [] ∨ c ∈ names t.columns := by
    intro c
    rw [mem_unite union_ hU (ts ++ [t]) [] c, hmemA]
    simp only [List.not_mem_nil, false_or, List.mem_append, List.mem_singleton]
    constructor
    · rintro ⟨d, hd | rfl, hc⟩
      · exact Or.inl ⟨d, hd, hc⟩
      · exact Or.inr hc
    · rintro (⟨d, hd, hc⟩ | hc)
      · exact ⟨d, Or.inl hd, hc⟩
      · exact ⟨t, Or.inr rfl, hc⟩
  refine ⟨_, _, stack_list_ofFrames union_ ts, stack_list_ofFrames union_ (ts ++ [t]), ?_, ?_⟩
  · intro i df hi
    have hi2 : (ts ++ [t])[i]? = some df := by
      obtain ⟨hlt, _⟩ := List.getElem?_eq_some.mp hi
      rw [List.getElem?_append_left hlt]
      exact hi
    have hsame : ∀ c ∈ unite union_ ts [],
        getNamed (process_df (unite union_ (ts ++ [t]) [])
            (get_column_types (ts ++ [t]) (unite union_ (ts ++ [t]) [])) df) c
          = getNamed (process_df (unite union_ ts [])
            (get_column_types ts (unite union_ ts [])) df) c := by
      intro c hc
      rw [getNamed_process_df _ _ _ _ ((hmemA2 c).mpr (Or.inl hc)),
        getNamed_process_df _ _ _ _ hc,
        fill_column_append ts t df c ((hmemA c).mp hc)]
    refine ⟨_, _, out_getElem? _ _ ts i df hi, out_getElem? _ _ (ts ++ [t]) i df hi2,
      ?_, ?_, ?_, ?_, ?_⟩
    · rw [names_process_df]
      exact unite_nodup union_ hU (ts ++ [t]) [] List.nodup_nil
    · intro c
      rw [names_process_df, names_process_df]
      exact hmemA2 c
    · intro c hc
      rw [names_process_df] at hc
      exact hsame c hc
    · intro c hc hnot
      rw [names_process_df] at hc hnot
      rw [getNamed_process_df _ _ _ _ hc]
      have hmiss : c ∉ names df.columns :=
        fun hx => hnot ((hmemA c).mpr ⟨df, List.getElem?_mem hi, hx⟩)
      simp only [fill_column, getNamed_of_not_mem c _ hmiss, get_column_types]
    · intro hall
      have hiff : ∀ c, c ∈ unite union_ (ts ++ [t]) [] ↔ c ∈ unite union_ ts [] := by
        intro c
        rw [hmemA2]
        constructor
        · rintro (h | h)
          · exact h
          · exact (hmemA c).mpr (hall c h)
        · exact Or.inl
      refine ⟨?_, ?_⟩
      · rw [names_process_df, names_process_df]
        exact (List.perm_ext_iff_of_nodup
          (unite_nodup union_ hU (ts ++ [t]) [] List.nodup_nil)
          (unite_nodup union_ hU ts [] List.nodup_nil)).mpr hiff
      · intro c
        by_cases hc : c ∈ unite union_ ts []
        · exact hsame c hc
        · rw [getNamed_of_not_mem c _
              (by rw [names_process_df]; exact fun hx => hc ((hiff c).mp hx)),
            getNamed_of_not_mem c _ (by rw [names_process_df]; exact hc)]
  · intro hS
    obtain ⟨out, out2, extra, h1, h2, hnew, hnil, hall⟩ := prefix_keeping union_ hS ts t
    rw [stack_list_ofFrames] at h1 h2
    rw [Except.ok.inj h1, Except.ok.inj h2]
    exact ⟨extra, hnew, hnil, hall⟩

theorem prefix_stability_witness :
    ∃ out out2, stack_list union_stable (ofFrames [table1]) = .ok out ∧
      stack_list union_stable (ofFrames ([table1] ++ [table2])) = .ok out2 ∧
      (∀ (i : Nat) (df : DataFrame), [table1][i]? = some df → ∃ o o2, out[i]? = some o ∧
        out2[i]? = some o2 ∧ (names o2).Nodup ∧
        (∀ c, c ∈ names o2 ↔ c ∈ names o ∨ c ∈ names table2.columns) ∧
        (∀ c ∈ names o, getNamed o2 c = getNamed o c) ∧
        (∀ c ∈ names o2, c ∉ names o → getNamed o2 c = some
          (na_column ((get_column_types ([table1] ++ [table2]) (names o2)).at c) df.nrows)) ∧
        ((∀ c ∈ names table2.columns, ∃ d ∈ [table1], c ∈ names d.columns) →
          (names o2).Perm (names o) ∧ ∀ c, getNamed o2 c = getNamed o c)) ∧
      ∃ extra, (∀ c ∈ extra, c ∈ names table2.columns ∧
          ∀ d ∈ [table1], c ∉ names d.columns) ∧
        ((∀ c ∈ names table2.columns, ∃ d ∈ [table1], c ∈ names d.columns) →
          extra = []) ∧
        ∀ (i : Nat) (df : DataFrame), [table1][i]? = some df → ∃ o o2, out[i]? = some o ∧
          out2[i]? = some o2 ∧ names o = NameUnion [table1] ∧
          o2 = o ++ extra.map (fun c =>
            (c, na_column ((get_column_types ([table1] ++ [table2]) (names o2)).at c)
              df.nrows)) := by
  obtain ⟨out, out2, h1, h2, hname, hkeep⟩ :=
    prefix_stability union_stable union_stable_isSetUnion [table1] table2
  exact ⟨out, out2, h1, h2, hname, hkeep union_stable_eq⟩

/-! ## The order of the column names -/

theorem unite_eq_foldl (union_ : UnionFn) (tables : List DataFrame) :
    ∀ acc, unite union_ tables acc
      = tables.foldl (fun all_names df => union_ all_names (names df.columns)) acc := by
  induction tables with
  | nil => intro acc; rfl
  | cons t ts ih => intro acc; simp only [unite, List.foldl_cons]; exact ih _

theorem unite_perm_NameUnion (union_ : UnionFn) (hU : IsSetUnion union_)
    (tables : List DataFrame) : (unite union_ tables []).Perm (NameUnion tables) := by
  apply (List.perm_ext_iff_of_nodup (unite_nodup union_ hU tables [] List.nodup_nil)
    (NameUnion_nodup tables)).mpr
  intro c
  rw [mem_unite union_ hU tables [] c, mem_NameUnion]
  simp

/-- C2, as stated, fails: with a set union that hands the names back in the
order of a head-linking hash set, the output table of `{id, name}` in the list
of `{id, name}` and `{id, score}` has the column order `score, id, name`, which
is not the first-seen order `id, name, score`. -/
theorem first_seen_order_fails :
    IsSetUnion union_head ∧
    NameUnion [table1, table2] = ["id", "name", "score"] ∧
    ∃ out t, stack_list union_head (ofFrames [table1, table2]) = .ok out ∧
      out[0]? = some t ∧ names t = ["score", "id", "name"] ∧
      names t ≠ NameUnion [table1, table2] :=
  ⟨union_head_isSetUnion, by decide, _, _, stack_list_ofFrames _ _, rfl, by decide, by decide⟩

/-- C2, amended: the column names of every output table are the names that
the fold of `union_` over the name vectors of the tables gives, in its order;
they are the names of the first-seen order, each once, in some order, and they
are in the first-seen order itself when `union_` keeps its left operand and
appends to it the new names of its right operand in their order. -/
theorem first_seen_order (union_ : UnionFn) (hU : IsSetUnion union_)
    (tables : List DataFrame) :
    ∃ out, stack_list union_ (ofFrames tables) = .ok out ∧ out.length = tables.length ∧
      ∀ t ∈ out,
        names t = tables.foldl (fun all_names df => union_ all_names (names df.columns)) [] ∧
        (names t).Perm (NameUnion tables) ∧
        ((∀ a b : List String, a.Nodup → union_ a b = appendNew a b) →
          names t = NameUnion tables) := by
  refine ⟨_, stack_list_ofFrames union_ tables, by simp, ?_⟩
  intro t ht
  obtain ⟨df, _, rfl⟩ := List.mem_map.mp ht
  rw [names_process_df]
  exact ⟨unite_eq_foldl union_ tables [], unite_perm_NameUnion union_ hU tables,
    fun hS => unite_keeping union_ hS tables⟩

theorem first_seen_order_witness :
    ∃ out, stack_list union_stable (ofFrames [table1, table2]) = .ok out ∧
      out.length = [table1, table2].length ∧
      ∀ t ∈ out,
        names t = [table1, table2].foldl
          (fun all_names df => union_stable all_names (names df.columns)) [] ∧
        (names t).Perm (NameUnion [table1, table2]) ∧
        names t = NameUnion [table1, table2] := by
  obtain ⟨out, h, hlen, hall⟩ :=
    first_seen_order union_stable union_stable_isSetUnion [table1, table2]
  exact ⟨out, h, hlen, fun t ht =>
    ⟨(hall t ht).1, (hall t ht).2.1, (hall t ht).2.2 union_stable_eq⟩⟩

end StackDf
